import Mathlib

/-!
Verification of the `tiny-led-matrix` display driver.

The available sources are `src/lib.rs` (crate documentation), `src/render.rs`
(the `Render` trait and the brightness constants) and `src/timer.rs` (the
`DisplayTimer` trait).  The crate's `display.rs` and `control.rs` modules
(the brightness table, `Frame` compilation and the `Display` scheduler) are
declared by `lib.rs` but are not among the available sources, so those parts
are modelled from the specification, as marked on each definition below.
-/

namespace TinyLedMatrix

/-- The number of brightness levels for greyscale images (`BRIGHTNESSES` in
`render.rs`, ie, 10). -/
def BRIGHTNESSES : Nat := 10

/-- The maximum brightness level for greyscale images (`MAX_BRIGHTNESS` in
`render.rs`, ie, 9; the minimum is 0). -/
def MAX_BRIGHTNESS : Nat := BRIGHTNESSES - 1

/-- The number of timer ticks in a primary cycle, ie in one matrix-row
period (documented as "always 375 ticks" in `timer.rs`). -/
def CYCLE_TICKS : Nat := 375

/-- Modelled from the spec: the brightness table (`display.rs`, which holds
it, is not among the available sources).  The spec fixes a 375-tick row
period and, for levels 1..9, strictly increasing switch-off ticks with
`threshold 9 = 375` and a ratio of roughly 1.9 between consecutive time
slices, leaving the exact integers to the implementer; these concrete values
satisfy those constraints. -/
def THRESHOLDS : List Nat := [2, 4, 8, 15, 29, 55, 104, 197, 375]

/-- The tick of the row period at which LEDs of level `l` (1..9) are switched
off: a level-`l` LED is lit during ticks `0..threshold l` of its row period.
Level 0 is never scheduled, so `threshold 0` is never consulted. -/
def threshold (l : Nat) : Nat := THRESHOLDS.getD (l - 1) 0

lemma threshold_nine : threshold 9 = CYCLE_TICKS := rfl

lemma threshold_pos : ∀ l, l < 10 → 1 ≤ l → 0 < threshold l := by decide

lemma threshold_le_cycle : ∀ l, l < 10 → threshold l ≤ CYCLE_TICKS := by decide

lemma threshold_strict_mono :
    ∀ a, a < 10 → ∀ b, b < 10 → 1 ≤ a → a < b → threshold a < threshold b := by
  decide

lemma threshold_inj :
    ∀ a, a < 10 → ∀ b, b < 10 → 1 ≤ a → 1 ≤ b →
      threshold a = threshold b → a = b := by
  decide

/-- Bounded linear search: the lowest value `l` with `lo ≤ l < lo + n`
satisfying `p`, scanning upwards from `lo`. -/
def findFrom (p : Nat → Bool) (lo : Nat) : Nat → Option Nat
  | 0 => none
  | n + 1 => if p lo then some lo else findFrom p (lo + 1) n

lemma findFrom_eq_some_iff {p : Nat → Bool} {n : Nat} : ∀ {lo l : Nat},
    findFrom p lo n = some l ↔
      lo ≤ l ∧ l < lo + n ∧ p l = true ∧
        ∀ k, lo ≤ k → k < l → p k = false := by
  induction n with
  | zero =>
    intro lo l
    constructor
    · intro h; exact absurd h (by simp [findFrom])
    · rintro ⟨h1, h2, -⟩; omega
  | succ n ih =>
    intro lo l
    by_cases hp : p lo = true
    · rw [show findFrom p lo (n + 1) = some lo from by rw [findFrom, if_pos hp]]
      constructor
      · intro h
        injection h with h
        subst h
        exact ⟨Nat.le_refl _, by omega, hp, fun k hk1 hk2 => by omega⟩
      · rintro ⟨h1, h2, h3, h4⟩
        rcases Nat.eq_or_lt_of_le h1 with h | h
        · rw [h]
        · exact absurd (h4 lo (Nat.le_refl _) h) (by simp [hp])
    · rw [show findFrom p lo (n + 1) = findFrom p (lo + 1) n from by
        rw [findFrom, if_neg hp]]
      rw [ih]
      have hplo : p lo = false := Bool.eq_false_iff.mpr hp
      constructor
      · rintro ⟨h1, h2, h3, h4⟩
        refine ⟨by omega, by omega, h3, fun k hk1 hk2 => ?_⟩
        rcases Nat.eq_or_lt_of_le hk1 with h | h
        · exact h ▸ hplo
        · exact h4 k h hk2
      · rintro ⟨h1, h2, h3, h4⟩
        have hne : l ≠ lo := by
          rintro rfl; rw [h3] at hplo; cases hplo
        exact ⟨by omega, by omega, h3, fun k hk1 hk2 => h4 k (by omega) hk2⟩

lemma findFrom_eq_none_iff {p : Nat → Bool} {n : Nat} : ∀ {lo : Nat},
    findFrom p lo n = none ↔ ∀ k, lo ≤ k → k < lo + n → p k = false := by
  induction n with
  | zero =>
    intro lo
    constructor
    · intro _ k h1 h2; omega
    · intro _; rfl
  | succ n ih =>
    intro lo
    by_cases hp : p lo = true
    · rw [show findFrom p lo (n + 1) = some lo from by rw [findFrom, if_pos hp]]
      constructor
      · intro h; cases h
      · intro h
        have := h lo (Nat.le_refl _) (by omega)
        rw [hp] at this; cases this
    · rw [show findFrom p lo (n + 1) = findFrom p (lo + 1) n from by
        rw [findFrom, if_neg hp]]
      rw [ih]
      have hplo : p lo = false := Bool.eq_false_iff.mpr hp
      constructor
      · intro h k hk1 hk2
        rcases Nat.eq_or_lt_of_le hk1 with he | he
        · exact he ▸ hplo
        · exact h k he (by omega)
      · intro h k hk1 hk2
        exact h k (by omega) (by omega)

/-- Bitwise OR of `f k` over `k` in `lo ≤ k < lo + n`. -/
def orFrom (f : Nat → Nat) (lo : Nat) : Nat → Nat
  | 0 => 0
  | n + 1 => f lo ||| orFrom f (lo + 1) n

lemma testBit_orFrom {f : Nat → Nat} {lo n i : Nat} :
    (orFrom f lo n).testBit i = true ↔
      ∃ l, lo ≤ l ∧ l < lo + n ∧ (f l).testBit i = true := by
  induction n generalizing lo with
  | zero => simp only [orFrom, Nat.zero_testBit]
            constructor
            · intro h; cases h
            · rintro ⟨l, h1, h2, -⟩; omega
  | succ n ih =>
    simp only [orFrom, Nat.testBit_or, Bool.or_eq_true, ih]
    constructor
    · rintro (h | ⟨l, h1, h2, h3⟩)
      · exact ⟨lo, Nat.le_refl _, by omega, h⟩
      · exact ⟨l, by omega, by omega, h3⟩
    · rintro ⟨l, h1, h2, h3⟩
      rcases Nat.eq_or_lt_of_le h1 with he | he
      · exact Or.inl (he ▸ h3)
      · exact Or.inr ⟨l, he, by omega, h3⟩

lemma orFrom_lt_two_pow_16 {f : Nat → Nat} :
    ∀ n lo, (∀ l, lo ≤ l → l < lo + n → f l < 65536) → orFrom f lo n < 65536 := by
  intro n
  induction n with
  | zero => intro lo _; simp only [orFrom]; omega
  | succ n ih =>
    intro lo hf
    have h1 : f lo < 2 ^ 16 := by
      have := hf lo (Nat.le_refl _) (by omega); omega
    have h2 : orFrom f (lo + 1) n < 2 ^ 16 := by
      have := ih (lo + 1) fun l ha hb => hf l (by omega) (by omega); omega
    have := Nat.or_lt_two_pow h1 h2
    simpa [orFrom] using this

lemma orFrom_eq_zero {f : Nat → Nat} {lo n : Nat}
    (hf : ∀ l, lo ≤ l → l < lo + n → f l = 0) : orFrom f lo n = 0 := by
  induction n generalizing lo with
  | zero => rfl
  | succ n ih =>
    have h1 : f lo = 0 := hf lo (Nat.le_refl _) (by omega)
    have h2 : orFrom f (lo + 1) n = 0 :=
      ih fun l hl1 hl2 => hf l (by omega) (by omega)
    simp [orFrom, h1, h2]

lemma testBit_of_lt_two_pow_16 {x : Nat} (i : Nat) (hx : x < 65536) (hi : 16 ≤ i) :
    x.testBit i = false := by
  apply Nat.testBit_lt_two_pow
  calc x < 65536 := hx
    _ = 2 ^ 16 := by norm_num
    _ ≤ 2 ^ i := Nat.pow_le_pow_right (by norm_num) hi

lemma testBit_comp16 (x i : Nat) :
    (65535 ^^^ x).testBit i = ((decide (i < 16)).xor (x.testBit i)) := by
  have h : (65535 : Nat) = 2 ^ 16 - 1 := by norm_num
  rw [Nat.testBit_xor, h, Nat.testBit_two_pow_sub_one]

lemma and_comp16_comp16 {u b c : Nat} (hb : b < 65536) (hc : c < 65536) :
    u &&& (65535 ^^^ b) &&& (65535 ^^^ c) = u &&& (65535 ^^^ (b ||| c)) := by
  apply Nat.eq_of_testBit_eq
  intro i
  simp only [Nat.testBit_and, testBit_comp16, Nat.testBit_or]
  by_cases hi : i < 16
  · simp only [hi, decide_True]
    cases u.testBit i <;> cases b.testBit i <;> cases c.testBit i <;> rfl
  · have hbb := testBit_of_lt_two_pow_16 i hb (by omega)
    have hcc := testBit_of_lt_two_pow_16 i hc (by omega)
    simp [hi, hbb, hcc]

lemma ne_zero_of_testBit {x i : Nat} (h : x.testBit i = true) : x ≠ 0 := by
  rintro rfl
  simp [Nat.zero_testBit] at h

/-- Modelled from the spec: a compiled matrix row (the spec's `CompiledRow`;
`display.rs`, which holds the `Frame` representation, is not among the
available sources).  `levels` has one entry for each level 1..9: the bitmask
of the columns whose pixel is at exactly that level; `union` is the bitmask
of all lit columns of the row. -/
structure CompiledRow where
  levels : List Nat
  union : Nat
deriving Repr, DecidableEq

/-- A compiled row with all bitmasks zero. -/
def CompiledRow.empty : CompiledRow := ⟨List.replicate 9 0, 0⟩

/-- The column bitmask of the columns at exactly level `l` (levels 1..9). -/
def CompiledRow.level (cr : CompiledRow) (l : Nat) : Nat := cr.levels.getD (l - 1) 0

/-- A level is present in a row when some column is at exactly that level. -/
def CompiledRow.present (cr : CompiledRow) (l : Nat) : Bool := cr.level l != 0

/-- Modelled from the spec: the matrix description consumed by the frame
compiler (the `Matrix` trait of `display.rs`, which is not among the
available sources): the matrix and image dimensions, and the pure geometry
capability mapping a visible pixel `(x, y)` to its
`(matrix row, matrix column)` wiring position. -/
structure Matrix where
  matrixRows : Nat
  matrixCols : Nat
  imageRows : Nat
  imageCols : Nat
  geometry : Nat → Nat → Nat × Nat

/-- The geometry capability maps distinct visible pixels to distinct matrix
positions (each matrix position shows at most one image pixel). -/
def Matrix.InjectiveGeometry (m : Matrix) : Prop :=
  ∀ x1, x1 < m.imageCols → ∀ y1, y1 < m.imageRows →
    ∀ x2, x2 < m.imageCols → ∀ y2, y2 < m.imageRows →
      m.geometry x1 y1 = m.geometry x2 y2 → x1 = x2 ∧ y1 = y2

instance (m : Matrix) : Decidable m.InjectiveGeometry :=
  @Nat.decidableBallLT _ _ fun _ _ =>
    @Nat.decidableBallLT _ _ fun _ _ =>
      @Nat.decidableBallLT _ _ fun _ _ =>
        @Nat.decidableBallLT _ _ fun _ _ => inferInstance

/-- Modelled from the spec: an out-of-range brightness value from the source
must be tolerated as an arbitrary in-range level, never unsafely; the model
bounds the value to `MAX_BRIGHTNESS`. -/
def boundBrightness (b : Nat) : Nat := min b MAX_BRIGHTNESS

/-- The contribution of visible pixel `(x, y)` to the bitmask for level `lvl`
of matrix row `r`: modelled from the spec, the pixel is mapped through the
geometry capability and its column is recorded for the exact (bounded)
brightness level of the pixel; level 0 records nothing because only levels
1..9 are ever consulted. -/
def pixelLevelBit (m : Matrix) (source : Nat → Nat → Nat) (r lvl x y : Nat) : Nat :=
  if (m.geometry x y).1 = r ∧ boundBrightness (source x y) = lvl then
    2 ^ (m.geometry x y).2
  else 0

/-- The contribution of visible pixel `(x, y)` to the union bitmask of matrix
row `r` (lit means bounded brightness at least 1). -/
def pixelUnionBit (m : Matrix) (source : Nat → Nat → Nat) (r x y : Nat) : Nat :=
  if (m.geometry x y).1 = r ∧ 1 ≤ boundBrightness (source x y) then
    2 ^ (m.geometry x y).2
  else 0

/-- Bitwise OR of `f x y` over all visible pixels `x < nx`, `y < ny`. -/
def pixelOr (f : Nat → Nat → Nat) : Nat → Nat → Nat
  | 0, _ => 0
  | nx + 1, ny => orFrom (f nx) 0 ny ||| pixelOr f nx ny

lemma testBit_pixelOr {f : Nat → Nat → Nat} {ny i : Nat} : ∀ {nx : Nat},
    (pixelOr f nx ny).testBit i = true ↔
      ∃ x, x < nx ∧ ∃ y, y < ny ∧ (f x y).testBit i = true := by
  intro nx
  induction nx with
  | zero =>
    simp only [pixelOr, Nat.zero_testBit]
    constructor
    · intro h; cases h
    · rintro ⟨x, hx, -⟩; omega
  | succ nx ih =>
    simp only [pixelOr, Nat.testBit_or, Bool.or_eq_true, ih, testBit_orFrom]
    constructor
    · rintro (⟨y, hy1, hy2, hy3⟩ | ⟨x, hx, y, hy, h⟩)
      · exact ⟨nx, by omega, y, by omega, hy3⟩
      · exact ⟨x, by omega, y, hy, h⟩
    · rintro ⟨x, hx, y, hy, h⟩
      rcases Nat.lt_succ_iff_lt_or_eq.mp hx with h1 | h1
      · exact Or.inr ⟨x, h1, y, hy, h⟩
      · subst h1
        exact Or.inl ⟨y, by omega, by omega, h⟩

lemma pixelOr_lt_two_pow_16 {f : Nat → Nat → Nat} {ny : Nat} :
    ∀ nx, (∀ x y, x < nx → y < ny → f x y < 65536) → pixelOr f nx ny < 65536 := by
  intro nx
  induction nx with
  | zero => intro _; simp only [pixelOr]; omega
  | succ nx ih =>
    intro hf
    have h1 : orFrom (f nx) 0 ny < 2 ^ 16 := by
      have := orFrom_lt_two_pow_16 ny 0 fun l ha hb => hf nx l (by omega) (by omega)
      omega
    have h2 : pixelOr f nx ny < 2 ^ 16 := by
      have := ih fun x y hx hy => hf x y (by omega) hy; omega
    have := Nat.or_lt_two_pow h1 h2
    simpa [pixelOr] using this

lemma pixelOr_eq_zero {f : Nat → Nat → Nat} {ny : Nat}
    (hf : ∀ x y, f x y = 0) : ∀ nx, pixelOr f nx ny = 0 := by
  intro nx
  induction nx with
  | zero => rfl
  | succ nx ih =>
    have h1 : orFrom (f nx) 0 ny = 0 := orFrom_eq_zero fun l h1 h2 => hf nx l
    simp [pixelOr, h1, ih]

/-- The bitmask of the columns of matrix row `r` whose pixel is at exactly
level `lvl`. -/
def levelMask (m : Matrix) (source : Nat → Nat → Nat) (r lvl : Nat) : Nat :=
  pixelOr (fun x y => pixelLevelBit m source r lvl x y) m.imageCols m.imageRows

/-- The bitmask of all lit columns of matrix row `r`. -/
def unionMask (m : Matrix) (source : Nat → Nat → Nat) (r : Nat) : Nat :=
  pixelOr (fun x y => pixelUnionBit m source r x y) m.imageCols m.imageRows

/-- Modelled from the spec: compile one matrix row of a brightness source:
for every visible pixel of the row, record its column at its exact bounded
brightness level, and record every lit column in the union bitmask. -/
def compileRow (m : Matrix) (source : Nat → Nat → Nat) (r : Nat) : CompiledRow :=
  { levels :=
      [levelMask m source r 1, levelMask m source r 2, levelMask m source r 3,
       levelMask m source r 4, levelMask m source r 5, levelMask m source r 6,
       levelMask m source r 7, levelMask m source r 8, levelMask m source r 9],
    union := unionMask m source r }

/-- Modelled from the spec: a compiled frame: one `CompiledRow` per matrix
row (the `Frame` trait of `display.rs`, which is not among the available
sources). -/
structure Frame where
  rows : List CompiledRow
deriving Repr, DecidableEq

/-- Modelled from the spec: `Frame::new`: an empty compiled frame, all
bitmasks zero. -/
def Frame.new (m : Matrix) : Frame :=
  ⟨List.replicate m.matrixRows CompiledRow.empty⟩

/-- Modelled from the spec: `Frame::set`: recompile every matrix row from the
image source, fully overwriting the prior compiled state. -/
def Frame.set (m : Matrix) (_prior : Frame) (source : Nat → Nat → Nat) : Frame :=
  ⟨(List.range m.matrixRows).map fun r => compileRow m source r⟩

lemma frame_set_rows_getD {m : Matrix} {f0 : Frame} {source : Nat → Nat → Nat}
    {r : Nat} (hr : r < m.matrixRows) :
    (Frame.set m f0 source).rows.getD r CompiledRow.empty = compileRow m source r := by
  simp [Frame.set, List.getD_eq_getElem?_getD, List.getElem?_map,
    List.getElem?_range hr]

lemma compileRow_level {m : Matrix} {source : Nat → Nat → Nat} {r : Nat}
    (l : Nat) (h1 : 1 ≤ l) (h9 : l ≤ 9) :
    (compileRow m source r).level l = levelMask m source r l := by
  interval_cases l <;> rfl

lemma compileRow_union {m : Matrix} {source : Nat → Nat → Nat} {r : Nat} :
    (compileRow m source r).union = unionMask m source r := rfl

lemma compileRow_level_junk {m : Matrix} {source : Nat → Nat → Nat} {r : Nat}
    (l : Nat) (h : 10 ≤ l) : (compileRow m source r).level l = 0 := by
  have h9 : 9 ≤ l - 1 := by omega
  simp only [CompiledRow.level, compileRow]
  rw [List.getD_eq_getElem?_getD, List.getElem?_eq_none (by simpa using h9)]
  rfl

lemma getD_of_forall (P : Nat → Prop) (h0 : P 0) :
    ∀ (xs : List Nat) (i : Nat), (∀ a ∈ xs, P a) → P (xs.getD i 0)
  | [], i, _ => by simpa [List.getD] using h0
  | a :: xs, 0, h => by simpa using h a (by simp)
  | a :: xs, i + 1, h => by
      simpa [List.getD] using
        getD_of_forall P h0 xs i fun b hb => h b (by simp [hb])

lemma testBit_pixelLevelBit {m : Matrix} {source : Nat → Nat → Nat}
    {r lvl x y i : Nat} :
    (pixelLevelBit m source r lvl x y).testBit i = true ↔
      (m.geometry x y).1 = r ∧ boundBrightness (source x y) = lvl ∧
        (m.geometry x y).2 = i := by
  unfold pixelLevelBit
  split
  · rename_i hcond
    simp only [Nat.testBit_two_pow]
    constructor
    · intro h; exact ⟨hcond.1, hcond.2, by simpa using h⟩
    · rintro ⟨-, -, h⟩; simpa using h
  · rename_i hcond
    simp only [Nat.zero_testBit]
    constructor
    · intro h; cases h
    · rintro ⟨h1, h2, -⟩; exact absurd ⟨h1, h2⟩ hcond

lemma testBit_pixelUnionBit {m : Matrix} {source : Nat → Nat → Nat}
    {r x y i : Nat} :
    (pixelUnionBit m source r x y).testBit i = true ↔
      (m.geometry x y).1 = r ∧ 1 ≤ boundBrightness (source x y) ∧
        (m.geometry x y).2 = i := by
  unfold pixelUnionBit
  split
  · rename_i hcond
    simp only [Nat.testBit_two_pow]
    constructor
    · intro h; exact ⟨hcond.1, hcond.2, by simpa using h⟩
    · rintro ⟨-, -, h⟩; simpa using h
  · rename_i hcond
    simp only [Nat.zero_testBit]
    constructor
    · intro h; cases h
    · rintro ⟨h1, h2, -⟩; exact absurd ⟨h1, h2⟩ hcond

lemma testBit_levelMask {m : Matrix} {source : Nat → Nat → Nat} {r lvl i : Nat} :
    (levelMask m source r lvl).testBit i = true ↔
      ∃ x, x < m.imageCols ∧ ∃ y, y < m.imageRows ∧
        (m.geometry x y).1 = r ∧ boundBrightness (source x y) = lvl ∧
          (m.geometry x y).2 = i := by
  unfold levelMask
  rw [testBit_pixelOr]
  constructor
  · rintro ⟨x, hx, y, hy, h⟩
    exact ⟨x, hx, y, hy, testBit_pixelLevelBit.mp h⟩
  · rintro ⟨x, hx, y, hy, h1, h2, h3⟩
    exact ⟨x, hx, y, hy, testBit_pixelLevelBit.mpr ⟨h1, h2, h3⟩⟩

lemma testBit_unionMask {m : Matrix} {source : Nat → Nat → Nat} {r i : Nat} :
    (unionMask m source r).testBit i = true ↔
      ∃ x, x < m.imageCols ∧ ∃ y, y < m.imageRows ∧
        (m.geometry x y).1 = r ∧ 1 ≤ boundBrightness (source x y) ∧
          (m.geometry x y).2 = i := by
  unfold unionMask
  rw [testBit_pixelOr]
  constructor
  · rintro ⟨x, hx, y, hy, h⟩
    exact ⟨x, hx, y, hy, testBit_pixelUnionBit.mp h⟩
  · rintro ⟨x, hx, y, hy, h1, h2, h3⟩
    exact ⟨x, hx, y, hy, testBit_pixelUnionBit.mpr ⟨h1, h2, h3⟩⟩

lemma levelMask_lt {m : Matrix} {source : Nat → Nat → Nat} {r lvl : Nat}
    (hcols : ∀ x, x < m.imageCols → ∀ y, y < m.imageRows → (m.geometry x y).2 < 16) :
    levelMask m source r lvl < 65536 := by
  unfold levelMask
  apply pixelOr_lt_two_pow_16
  intro x y hx hy
  unfold pixelLevelBit
  split
  · have := hcols x hx y hy
    calc 2 ^ (m.geometry x y).2 ≤ 2 ^ 15 :=
          Nat.pow_le_pow_right (by norm_num) (by omega)
      _ < 65536 := by norm_num
  · omega

lemma unionMask_lt {m : Matrix} {source : Nat → Nat → Nat} {r : Nat}
    (hcols : ∀ x, x < m.imageCols → ∀ y, y < m.imageRows → (m.geometry x y).2 < 16) :
    unionMask m source r < 65536 := by
  unfold unionMask
  apply pixelOr_lt_two_pow_16
  intro x y hx hy
  unfold pixelUnionBit
  split
  · have := hcols x hx y hy
    calc 2 ^ (m.geometry x y).2 ≤ 2 ^ 15 :=
          Nat.pow_le_pow_right (by norm_num) (by omega)
      _ < 65536 := by norm_num
  · omega

lemma compileRow_level_lt {m : Matrix} {source : Nat → Nat → Nat} {r : Nat}
    (hcols : ∀ x, x < m.imageCols → ∀ y, y < m.imageRows → (m.geometry x y).2 < 16) :
    ∀ l, (compileRow m source r).level l < 65536 := by
  intro l
  unfold CompiledRow.level
  apply getD_of_forall (fun a => a < 65536) (by norm_num)
  intro a ha
  simp only [compileRow, List.mem_cons, List.not_mem_nil, or_false] at ha
  rcases ha with rfl | rfl | rfl | rfl | rfl | rfl | rfl | rfl | rfl <;>
    exact levelMask_lt hcols

lemma geometry_unique {m : Matrix} (hinj : m.InjectiveGeometry)
    {x y x' y' : Nat} (hx : x < m.imageCols) (hy : y < m.imageRows)
    (hx' : x' < m.imageCols) (hy' : y' < m.imageRows)
    (h : m.geometry x' y' = m.geometry x y) : x' = x ∧ y' = y :=
  hinj x' hx' y' hy' x hx y hy h

/-- The displayed brightness of pixel `(x, y)` at row `r`, column `col`:
characterisation of the level bitmasks at that pixel's own matrix position,
assuming an injective geometry. -/
lemma testBit_levelMask_pixel {m : Matrix} {source : Nat → Nat → Nat}
    {x y r col lvl : Nat} (hinj : m.InjectiveGeometry)
    (hx : x < m.imageCols) (hy : y < m.imageRows)
    (hg : m.geometry x y = (r, col)) :
    (levelMask m source r lvl).testBit col =
      decide (boundBrightness (source x y) = lvl) := by
  rcases Bool.eq_false_or_eq_true (decide (boundBrightness (source x y) = lvl)) with
    hd | hd
  · rw [hd]
    have hb : boundBrightness (source x y) = lvl := by simpa using hd
    exact testBit_levelMask.mpr
      ⟨x, hx, y, hy, by rw [hg], hb, by rw [hg]⟩
  · rw [hd]
    rw [← Bool.not_eq_true]
    intro hbit
    rcases testBit_levelMask.mp hbit with ⟨x', hx', y', hy', h1, h2, h3⟩
    have hgeq : m.geometry x' y' = m.geometry x y := by
      rw [hg]; exact Prod.ext h1 h3
    obtain ⟨rfl, rfl⟩ := geometry_unique hinj hx hy hx' hy' hgeq
    rw [h2] at hd
    simp at hd

lemma testBit_unionMask_pixel {m : Matrix} {source : Nat → Nat → Nat}
    {x y r col : Nat} (hinj : m.InjectiveGeometry)
    (hx : x < m.imageCols) (hy : y < m.imageRows)
    (hg : m.geometry x y = (r, col)) :
    (unionMask m source r).testBit col =
      decide (1 ≤ boundBrightness (source x y)) := by
  rcases Bool.eq_false_or_eq_true (decide (1 ≤ boundBrightness (source x y))) with
    hd | hd
  · rw [hd]
    have hb : 1 ≤ boundBrightness (source x y) := by simpa using hd
    exact testBit_unionMask.mpr
      ⟨x, hx, y, hy, by rw [hg], hb, by rw [hg]⟩
  · rw [hd]
    rw [← Bool.not_eq_true]
    intro hbit
    rcases testBit_unionMask.mp hbit with ⟨x', hx', y', hy', h1, h2, h3⟩
    have hgeq : m.geometry x' y' = m.geometry x y := by
      rw [hg]; exact Prod.ext h1 h3
    obtain ⟨rfl, rfl⟩ := geometry_unique hinj hx hy hx' hy' hgeq
    rw [decide_eq_false_iff_not] at hd
    exact hd h2

/-- Modelled from the spec: the scheduler state proper: the index of the
matrix row currently being displayed, and the cursor over the row's present
levels, ie the level for which the secondary alarm is currently programmed. -/
structure DisplayState where
  rowIndex : Nat
  currentLevel : Nat
deriving Repr, DecidableEq

/-- Model of the timer capability's observable state: whether the secondary
alarm is enabled, and the tick of the primary cycle it is programmed for
(`enable_secondary` / `disable_secondary` / `program_secondary` of
`timer.rs`). -/
structure TimerState where
  secondaryEnabled : Bool
  secondaryTick : Nat
deriving Repr, DecidableEq

/-- Model of the LED control capability: at most one matrix row is lit at any
time; `litRow` is that row and `litCols` the bitmask of its lit columns
(a zero bitmask means the row is dark). -/
structure LightState where
  litRow : Nat
  litCols : Nat
deriving Repr, DecidableEq

/-- The whole observable state driven by the event handler. -/
structure SysState where
  disp : DisplayState
  timer : TimerState
  lights : LightState
deriving Repr, DecidableEq

/-- The state before the first event: row 0, secondary alarm disabled, all
LEDs dark. -/
def initialState : SysState := ⟨⟨0, 0⟩, ⟨false, 0⟩, ⟨0, 0⟩⟩

/-- Modelled from the spec: the primary-cycle event: extinguish the finished
row, advance the row index wrapping to 0 after the last matrix row, load the
new row's `CompiledRow` from the published frame, light its union bitmask,
and compute the lowest present non-zero level: if there is none, or it is 9
(an all-or-nothing row), leave the secondary alarm disabled; otherwise
program the secondary alarm to that level's threshold tick and enable it. -/
def primaryEvent (nRows : Nat) (frame : Frame) (s : SysState) : SysState :=
  let r := (s.disp.rowIndex + 1) % nRows
  let cr := frame.rows.getD r CompiledRow.empty
  let lights : LightState := ⟨r, cr.union⟩
  match findFrom (fun l => cr.present l) 1 9 with
  | none => ⟨⟨r, 0⟩, ⟨false, s.timer.secondaryTick⟩, lights⟩
  | some l =>
      if l = 9 then ⟨⟨r, 0⟩, ⟨false, s.timer.secondaryTick⟩, lights⟩
      else ⟨⟨r, l⟩, ⟨true, threshold l⟩, lights⟩

/-- Modelled from the spec: the secondary-alarm event: extinguish exactly the
columns at the level just reached, then look for the next higher distinct
present level that still needs extinguishing (level 9 never does: its
columns stay lit until the next primary-cycle event): if there is one,
reprogram the alarm to its threshold and keep it enabled, else disable the
alarm. -/
def secondaryEvent (frame : Frame) (s : SysState) : SysState :=
  let r := s.disp.rowIndex
  let cr := frame.rows.getD r CompiledRow.empty
  let c := s.disp.currentLevel
  let lights : LightState := ⟨r, s.lights.litCols &&& (65535 ^^^ cr.level c)⟩
  match findFrom (fun l => cr.present l) (c + 1) (8 - c) with
  | none => ⟨⟨r, c⟩, ⟨false, s.timer.secondaryTick⟩, lights⟩
  | some l => ⟨⟨r, l⟩, ⟨true, threshold l⟩, lights⟩

/-- Modelled from the spec: one invocation of `Display::handle_event`: both
timer flags are polled on every invocation; a primary-cycle event is handled
first, otherwise a pending secondary alarm, and a spurious invocation where
neither has fired is a no-op. -/
def handleEvent (nRows : Nat) (frame : Frame) (primary secondary : Bool)
    (s : SysState) : SysState :=
  if primary then primaryEvent nRows frame s
  else if secondary then secondaryEvent frame s
  else s

/-- One simulated tick after row start: the handler is invoked with the
secondary flag set exactly when the enabled secondary alarm is programmed
for the current tick. -/
def tickStep (nRows : Nat) (frame : Frame) (t : Nat) (s : SysState) : SysState :=
  handleEvent nRows frame false
    (s.timer.secondaryEnabled && s.timer.secondaryTick == t) s

/-- The simulated state at tick `t` of a row period: the primary-cycle event
fires at tick 0 (entering the row after the one `s0` was displaying), and
each later tick processes the secondary alarm exactly when it is due. -/
def runRow (nRows : Nat) (frame : Frame) (s0 : SysState) : Nat → SysState
  | 0 => handleEvent nRows frame true false s0
  | t + 1 => tickStep nRows frame (t + 1) (runRow nRows frame s0 t)

/-- The 375 per-tick states of one row period. -/
def rowTickStates (nRows : Nat) (frame : Frame) (s0 : SysState) : List SysState :=
  (List.range CYCLE_TICKS).map (runRow nRows frame s0)

/-- The state at the end of a row period, used as the start state of the next
period. -/
def rowEnd (nRows : Nat) (frame : Frame) (s0 : SysState) : SysState :=
  runRow nRows frame s0 (CYCLE_TICKS - 1)

/-- The per-tick states of `k` consecutive row periods. -/
def refreshStates (nRows : Nat) (frame : Frame) (s0 : SysState) :
    Nat → List SysState
  | 0 => []
  | k + 1 => rowTickStates nRows frame s0 ++
      refreshStates nRows frame (rowEnd nRows frame s0) k

/-- The number of simulated ticks at which column `col` of matrix row `r` is
lit. -/
def countLitTicks (states : List SysState) (r col : Nat) : Nat :=
  states.countP fun s => s.lights.litRow == r && s.lights.litCols.testBit col

/-- The lowest schedulable (below 9) present level of a row whose threshold
is still in the future at tick `t`: the level the secondary alarm must be
programmed for. -/
def nextAlarmLevel (cr : CompiledRow) (t : Nat) : Option Nat :=
  findFrom (fun l => cr.present l && decide (t < threshold l)) 1 8

/-- The union of the level bitmasks whose switch-off threshold has been
reached by tick `t`. -/
def extinguishedMask (cr : CompiledRow) (t : Nat) : Nat :=
  orFrom (fun l => if threshold l ≤ t then cr.level l else 0) 1 8

/-- Closed form for the lit-column bitmask at tick `t` of a row period. -/
def litMask (cr : CompiledRow) (t : Nat) : Nat :=
  cr.union &&& (65535 ^^^ extinguishedMask cr t)

/-- The invariant tying the simulated state at tick `t` of a row period to
the closed forms above. -/
def RowInv (cr : CompiledRow) (r t : Nat) (s : SysState) : Prop :=
  s.disp.rowIndex = r ∧ s.lights.litRow = r ∧ s.lights.litCols = litMask cr t ∧
    match nextAlarmLevel cr t with
    | none => s.timer.secondaryEnabled = false
    | some l => s.timer.secondaryEnabled = true ∧
        s.timer.secondaryTick = threshold l ∧ s.disp.currentLevel = l

lemma testBit_extinguishedMask {cr : CompiledRow} {t i : Nat} :
    (extinguishedMask cr t).testBit i = true ↔
      ∃ l, 1 ≤ l ∧ l < 9 ∧ threshold l ≤ t ∧ (cr.level l).testBit i = true := by
  unfold extinguishedMask
  rw [testBit_orFrom]
  constructor
  · rintro ⟨l, h1, h2, h3⟩
    by_cases ht : threshold l ≤ t
    · rw [if_pos ht] at h3
      exact ⟨l, h1, by omega, ht, h3⟩
    · rw [if_neg ht] at h3
      rw [Nat.zero_testBit] at h3
      cases h3
  · rintro ⟨l, h1, h2, h3, h4⟩
    exact ⟨l, h1, by omega, by rw [if_pos h3]; exact h4⟩

lemma extinguishedMask_lt {cr : CompiledRow} (hl : ∀ l, cr.level l < 65536)
    (t : Nat) : extinguishedMask cr t < 65536 := by
  unfold extinguishedMask
  apply orFrom_lt_two_pow_16
  intro l _ _
  split
  · exact hl l
  · norm_num

lemma extinguishedMask_zero {cr : CompiledRow} : extinguishedMask cr 0 = 0 := by
  unfold extinguishedMask
  apply orFrom_eq_zero
  intro l h1 h2
  rw [if_neg]
  have := threshold_pos l (by omega) (by omega)
  omega

lemma litMask_zero {cr : CompiledRow} (hu : cr.union < 65536) :
    litMask cr 0 = cr.union := by
  rw [litMask, extinguishedMask_zero, Nat.xor_zero]
  have h : (65535 : Nat) = 2 ^ 16 - 1 := by norm_num
  rw [h]
  exact Nat.and_pow_two_sub_one_of_lt_two_pow (by omega)

lemma testBit_litMask {cr : CompiledRow} {t i : Nat} (hi : i < 16) :
    (litMask cr t).testBit i =
      (cr.union.testBit i && !(extinguishedMask cr t).testBit i) := by
  rw [litMask, Nat.testBit_and, testBit_comp16]
  have : decide (i < 16) = true := decide_eq_true hi
  rw [this]
  cases (extinguishedMask cr t).testBit i <;> rfl

lemma rowInv_zero {nRows : Nat} {frame : Frame} {s0 : SysState}
    {cr : CompiledRow} {r : Nat}
    (hr : r = (s0.disp.rowIndex + 1) % nRows)
    (hcr : cr = frame.rows.getD r CompiledRow.empty)
    (hu : cr.union < 65536) :
    RowInv cr r 0 (runRow nRows frame s0 0) := by
  have hre : runRow nRows frame s0 0 = primaryEvent nRows frame s0 := rfl
  rw [hre]
  simp only [primaryEvent]
  rw [← hr, ← hcr]
  rcases hfind : findFrom (fun l => cr.present l) 1 9 with _ | l
  · have hnone : ∀ k, 1 ≤ k → k < 10 → cr.present k = false := by
      intro k h1 h2
      exact findFrom_eq_none_iff.mp hfind k h1 (by omega)
    have hna : nextAlarmLevel cr 0 = none := by
      apply findFrom_eq_none_iff.mpr
      intro k h1 h2
      rw [hnone k h1 (by omega)]
      rfl
    refine ⟨rfl, rfl, (litMask_zero hu).symm, ?_⟩
    rw [hna]
  · obtain ⟨h1, h2, h3, h4⟩ := findFrom_eq_some_iff.mp hfind
    dsimp only
    by_cases h9 : l = 9
    · rw [if_pos h9]
      have hna : nextAlarmLevel cr 0 = none := by
        apply findFrom_eq_none_iff.mpr
        intro k hk1 hk2
        rw [h4 k hk1 (by omega)]
        rfl
      refine ⟨rfl, rfl, (litMask_zero hu).symm, ?_⟩
      rw [hna]
    · rw [if_neg h9]
      have hna : nextAlarmLevel cr 0 = some l := by
        apply findFrom_eq_some_iff.mpr
        refine ⟨h1, by omega, ?_, ?_⟩
        · rw [h3]
          have := threshold_pos l (by omega) h1
          simpa using this
        · intro k hk1 hk2
          rw [h4 k hk1 hk2]
          rfl
      refine ⟨rfl, rfl, (litMask_zero hu).symm, ?_⟩
      rw [hna]
      exact ⟨rfl, rfl, rfl⟩

lemma bool_eq_of_true_iff {a b : Bool} (h : a = true ↔ b = true) : a = b := by
  cases a <;> cases b <;> simp_all

lemma present_of_testBit {cr : CompiledRow} {l i : Nat}
    (h : (cr.level l).testBit i = true) : cr.present l = true := by
  unfold CompiledRow.present
  rw [bne_iff_ne]
  exact ne_zero_of_testBit h

lemma present_false_level {cr : CompiledRow} {l : Nat}
    (h : cr.present l = false) : cr.level l = 0 := by
  unfold CompiledRow.present at h
  simpa using h

lemma rowInv_step {nRows : Nat} {frame : Frame} {cr : CompiledRow} {r t : Nat}
    {s : SysState}
    (hcr : cr = frame.rows.getD r CompiledRow.empty)
    (hl : ∀ l, cr.level l < 65536)
    (hinv : RowInv cr r t s) :
    RowInv cr r (t + 1) (tickStep nRows frame (t + 1) s) := by
  obtain ⟨hrow, hlit, hcols, halarm⟩ := hinv
  rcases hna : nextAlarmLevel cr t with _ | c
  · rw [hna] at halarm
    have hnone := findFrom_eq_none_iff.mp hna
    have hq : ∀ k, 1 ≤ k → k < 9 → cr.present k = true → threshold k ≤ t := by
      intro k h1 h2 hp
      have := hnone k h1 (by omega)
      rw [hp] at this
      simp only [Bool.true_and, decide_eq_false_iff_not] at this
      omega
    have hstep : tickStep nRows frame (t + 1) s = s := by
      unfold tickStep handleEvent
      rw [halarm]
      rfl
    rw [hstep]
    have hext : extinguishedMask cr (t + 1) = extinguishedMask cr t := by
      apply Nat.eq_of_testBit_eq
      intro i
      apply bool_eq_of_true_iff
      rw [testBit_extinguishedMask, testBit_extinguishedMask]
      constructor
      · rintro ⟨l, h1, h2, h3, h4⟩
        have hp := present_of_testBit h4
        exact ⟨l, h1, h2, hq l h1 h2 hp, h4⟩
      · rintro ⟨l, h1, h2, h3, h4⟩
        exact ⟨l, h1, h2, by omega, h4⟩
    have hnext : nextAlarmLevel cr (t + 1) = none := by
      apply findFrom_eq_none_iff.mpr
      intro k h1 h2
      rcases hp : cr.present k with _ | _
      · rfl
      · have := hq k h1 (by omega) hp
        simp only [Bool.true_and, decide_eq_false_iff_not]
        omega
    refine ⟨hrow, hlit, ?_, ?_⟩
    · rw [hcols]
      unfold litMask
      rw [hext]
    · rw [hnext]
      exact halarm
  · rw [hna] at halarm
    obtain ⟨hen, htick, hcur⟩ := halarm
    obtain ⟨hc1, hc2, hc3, hmin⟩ := findFrom_eq_some_iff.mp hna
    have hc2' : c < 9 := by omega
    rw [Bool.and_eq_true, decide_eq_true_eq] at hc3
    obtain ⟨hpc, htc⟩ := hc3
    have hminq : ∀ k, 1 ≤ k → k < c → cr.present k = true → threshold k ≤ t := by
      intro k h1 h2 hp
      have := hmin k h1 h2
      rw [hp] at this
      simp only [Bool.true_and, decide_eq_false_iff_not] at this
      omega
    by_cases hfire : threshold c = t + 1
    · have hstep : tickStep nRows frame (t + 1) s = secondaryEvent frame s := by
        unfold tickStep handleEvent
        rw [hen, htick, hfire]
        simp
      rw [hstep]
      simp only [secondaryEvent]
      rw [hrow, ← hcr, hcur, hcols]
      have hext2 : extinguishedMask cr t ||| cr.level c = extinguishedMask cr (t + 1) := by
        apply Nat.eq_of_testBit_eq
        intro i
        apply bool_eq_of_true_iff
        rw [Nat.testBit_or, Bool.or_eq_true, testBit_extinguishedMask,
          testBit_extinguishedMask]
        constructor
        · rintro (⟨l, h1, h2, h3, h4⟩ | hbit)
          · exact ⟨l, h1, h2, by omega, h4⟩
          · exact ⟨c, hc1, hc2', by omega, hbit⟩
        · rintro ⟨l, h1, h2, h3, h4⟩
          rcases Nat.lt_or_ge t (threshold l) with h5 | h5
          · have hle : threshold l = t + 1 := by omega
            have : l = c := by
              apply threshold_inj l (by omega) c (by omega) h1 hc1
              rw [hle, hfire]
            exact Or.inr (this ▸ h4)
          · exact Or.inl ⟨l, h1, h2, h5, h4⟩
      have hlits : litMask cr t &&& (65535 ^^^ cr.level c) = litMask cr (t + 1) := by
        unfold litMask
        rw [and_comp16_comp16 (extinguishedMask_lt hl t) (hl c), hext2]
      rcases hnext : findFrom (fun l => cr.present l) (c + 1) (8 - c) with _ | l
      · dsimp only
        have hnone2 := findFrom_eq_none_iff.mp hnext
        have hafter : nextAlarmLevel cr (t + 1) = none := by
          apply findFrom_eq_none_iff.mpr
          intro k h1 h2
          rcases hp : cr.present k with _ | _
          · rfl
          · rcases Nat.lt_or_ge k (c + 1) with hk | hk
            · simp only [Bool.true_and, decide_eq_false_iff_not]
              rcases Nat.lt_or_ge k c with hkc | hkc
              · have := hminq k h1 hkc hp
                omega
              · have : k = c := by omega
                subst this
                omega
            · have := hnone2 k hk (by omega)
              rw [hp] at this
              cases this
        refine ⟨rfl, rfl, hlits, ?_⟩
        rw [hafter]
      · dsimp only
        obtain ⟨hl1, hl2, hl3, hlmin⟩ := findFrom_eq_some_iff.mp hnext
        have hl2' : l < 9 := by omega
        have hthl : t + 1 < threshold l := by
          have := threshold_strict_mono c (by omega) l (by omega) hc1 (by omega)
          omega
        have hafter : nextAlarmLevel cr (t + 1) = some l := by
          apply findFrom_eq_some_iff.mpr
          refine ⟨by omega, by omega, ?_, ?_⟩
          · rw [hl3]
            simpa using hthl
          · intro k h1 h2
            rcases hp : cr.present k with _ | _
            · rfl
            · simp only [Bool.true_and, decide_eq_false_iff_not]
              rcases Nat.lt_or_ge k (c + 1) with hk | hk
              · rcases Nat.lt_or_ge k c with hkc | hkc
                · have := hminq k h1 hkc hp
                  omega
                · have : k = c := by omega
                  subst this
                  omega
              · have := hlmin k hk h2
                rw [hp] at this
                cases this
        refine ⟨rfl, rfl, hlits, ?_⟩
        rw [hafter]
        exact ⟨rfl, rfl, rfl⟩
    · have hfire2 : t + 1 < threshold c := by omega
      have hstep : tickStep nRows frame (t + 1) s = s := by
        unfold tickStep handleEvent
        rw [hen, htick]
        have : (threshold c == t + 1) = false := by
          simpa using hfire
        rw [this]
        rfl
      rw [hstep]
      have hext : extinguishedMask cr (t + 1) = extinguishedMask cr t := by
        apply Nat.eq_of_testBit_eq
        intro i
        apply bool_eq_of_true_iff
        rw [testBit_extinguishedMask, testBit_extinguishedMask]
        constructor
        · rintro ⟨l, h1, h2, h3, h4⟩
          rcases Nat.lt_or_ge t (threshold l) with h5 | h5
          · exfalso
            have hp := present_of_testBit h4
            have hle : threshold l = t + 1 := by omega
            rcases Nat.lt_trichotomy l c with hlc | hlc | hlc
            · have := hminq l h1 hlc hp
              omega
            · subst hlc
              omega
            · have := threshold_strict_mono c (by omega) l (by omega) hc1 hlc
              omega
          · exact ⟨l, h1, h2, h5, h4⟩
        · rintro ⟨l, h1, h2, h3, h4⟩
          exact ⟨l, h1, h2, by omega, h4⟩
      have hnext : nextAlarmLevel cr (t + 1) = some c := by
        apply findFrom_eq_some_iff.mpr
        refine ⟨hc1, by omega, ?_, ?_⟩
        · rw [hpc]
          simpa using hfire2
        · intro k h1 h2
          rcases hp : cr.present k with _ | _
          · rfl
          · simp only [Bool.true_and, decide_eq_false_iff_not]
            have := hminq k h1 h2 hp
            omega
      refine ⟨hrow, hlit, ?_, ?_⟩
      · rw [hcols]
        unfold litMask
        rw [hext]
      · rw [hnext]
        exact ⟨hen, htick, hcur⟩

/-- The row-period invariant holds at every tick of the simulation. -/
lemma rowInv_all {nRows : Nat} {frame : Frame} {s0 : SysState}
    {cr : CompiledRow} {r : Nat}
    (hr : r = (s0.disp.rowIndex + 1) % nRows)
    (hcr : cr = frame.rows.getD r CompiledRow.empty)
    (hu : cr.union < 65536)
    (hl : ∀ l, cr.level l < 65536) :
    ∀ t, RowInv cr r t (runRow nRows frame s0 t) := by
  intro t
  induction t with
  | zero => exact rowInv_zero hr hcr hu
  | succ t ih => exact rowInv_step hcr hl ih

lemma extinguished_testBit_pixel {m : Matrix} {source : Nat → Nat → Nat}
    {x y r col t : Nat} (hinj : m.InjectiveGeometry)
    (hx : x < m.imageCols) (hy : y < m.imageRows)
    (hg : m.geometry x y = (r, col)) :
    (extinguishedMask (compileRow m source r) t).testBit col =
      decide (1 ≤ boundBrightness (source x y) ∧
        boundBrightness (source x y) ≤ 8 ∧
          threshold (boundBrightness (source x y)) ≤ t) := by
  apply bool_eq_of_true_iff
  rw [testBit_extinguishedMask, decide_eq_true_eq]
  constructor
  · rintro ⟨l, h1, h2, h3, h4⟩
    rw [compileRow_level l h1 (by omega),
      testBit_levelMask_pixel hinj hx hy hg, decide_eq_true_eq] at h4
    rw [h4]
    exact ⟨by omega, by omega, h3⟩
  · rintro ⟨hb1, hb2, hb3⟩
    refine ⟨boundBrightness (source x y), hb1, by omega, hb3, ?_⟩
    rw [compileRow_level (boundBrightness (source x y)) hb1 (by omega),
      testBit_levelMask_pixel hinj hx hy hg]
    simp

/-- Core simulation lemma: the pixel's column of a compiled frame is lit at
tick `t` of its row's period exactly when `t` is before the threshold of the
pixel's (non-zero) brightness. -/
lemma runRow_litCols_pixel
    (m : Matrix) (source : Nat → Nat → Nat) (f0 : Frame) (s0 : SysState)
    (x y r col t : Nat)
    (hpos : 0 < m.matrixRows)
    (hinj : m.InjectiveGeometry)
    (hcols : ∀ a, a < m.imageCols → ∀ b, b < m.imageRows → (m.geometry a b).2 < 16)
    (hx : x < m.imageCols) (hy : y < m.imageRows)
    (hg : m.geometry x y = (r, col))
    (hr : r = (s0.disp.rowIndex + 1) % m.matrixRows)
    (hb : source x y ≤ MAX_BRIGHTNESS)
    (ht : t < CYCLE_TICKS) :
    (runRow m.matrixRows (Frame.set m f0 source) s0 t).lights.litCols.testBit col
      = (decide (source x y ≠ 0) && decide (t < threshold (source x y))) := by
  have hrlt : r < m.matrixRows := by rw [hr]; exact Nat.mod_lt _ hpos
  have hcr : compileRow m source r =
      (Frame.set m f0 source).rows.getD r CompiledRow.empty :=
    (frame_set_rows_getD hrlt).symm
  have hu : (compileRow m source r).union < 65536 := by
    rw [compileRow_union]; exact unionMask_lt hcols
  have hlv : ∀ l, (compileRow m source r).level l < 65536 :=
    compileRow_level_lt hcols
  obtain ⟨-, -, hlitc, -⟩ := rowInv_all hr hcr hu hlv t
  rw [hlitc]
  have hcol16 : col < 16 := by
    have := hcols x hx y hy; rw [hg] at this; exact this
  rw [testBit_litMask hcol16, compileRow_union,
    testBit_unionMask_pixel hinj hx hy hg,
    extinguished_testBit_pixel hinj hx hy hg]
  have hb9 : source x y ≤ 9 := by
    simpa [MAX_BRIGHTNESS, BRIGHTNESSES] using hb
  have hbb : boundBrightness (source x y) = source x y := by
    simp only [boundBrightness, MAX_BRIGHTNESS, BRIGHTNESSES]
    omega
  rw [hbb]
  have ht375 : t < 375 := by simpa [CYCLE_TICKS] using ht
  apply bool_eq_of_true_iff
  simp only [Bool.and_eq_true, Bool.not_eq_eq_eq_not, Bool.not_true,
    decide_eq_false_iff_not, decide_eq_true_eq, ne_eq]
  by_cases hv9 : source x y = 9
  · rw [hv9]
    have h375 : threshold 9 = 375 := rfl
    rw [h375]
    constructor
    · rintro ⟨-, -⟩
      exact ⟨by omega, ht375⟩
    · rintro ⟨-, -⟩
      exact ⟨by omega, by omega⟩
  · have hv8 : source x y ≤ 8 := by omega
    constructor
    · rintro ⟨h1, h2⟩
      refine ⟨by omega, ?_⟩
      by_contra hcon
      exact h2 ⟨h1, hv8, by omega⟩
    · rintro ⟨h1, h2⟩
      exact ⟨by omega, fun hcon => by omega⟩

/-- C1: for every image and every pixel `(x, y)`: simulating the scheduler
over ticks `0..375` of the primary cycle in which that pixel's matrix row is
active, the pixel's column is lit at tick `t` exactly when the pixel's
brightness thresholded against the brightness table says it should be: lit
iff the brightness is non-zero and `t` is before `threshold` of the
brightness. -/
theorem greyscale_simulation_matches_brightness
    (m : Matrix) (source : Nat → Nat → Nat) (f0 : Frame) (s0 : SysState)
    (x y r col t : Nat)
    (hpos : 0 < m.matrixRows)
    (hinj : m.InjectiveGeometry)
    (hcols : ∀ a, a < m.imageCols → ∀ b, b < m.imageRows → (m.geometry a b).2 < 16)
    (hx : x < m.imageCols) (hy : y < m.imageRows)
    (hg : m.geometry x y = (r, col))
    (hr : r = (s0.disp.rowIndex + 1) % m.matrixRows)
    (hb : source x y ≤ MAX_BRIGHTNESS)
    (ht : t < CYCLE_TICKS) :
    (runRow m.matrixRows (Frame.set m f0 source) s0 t).lights.litCols.testBit col
      = (decide (source x y ≠ 0) && decide (t < threshold (source x y))) :=
  runRow_litCols_pixel m source f0 s0 x y r col t hpos hinj hcols hx hy hg hr hb ht

/-- A concrete 2×2 display used to evaluate the theorems: the visible pixel
`(x, y)` is wired at matrix row `y`, matrix column `x`. -/
def mW : Matrix := ⟨2, 2, 2, 2, fun x y => (y, x)⟩

/-- A concrete image: pixel `(0, 0)` at brightness 3, the rest dark. -/
def srcW : Nat → Nat → Nat := fun x y => if x = 0 ∧ y = 0 then 3 else 0

/-- A concrete prior frame. -/
def fW : Frame := Frame.new mW

/-- A concrete start state displaying row 1, so that the next primary-cycle
event enters row 0. -/
def s0W : SysState := ⟨⟨1, 0⟩, ⟨false, 0⟩, ⟨0, 0⟩⟩

theorem greyscale_simulation_matches_brightness_check :
    (runRow mW.matrixRows (Frame.set mW fW srcW) s0W 2).lights.litCols.testBit 0
      = (decide (srcW 0 0 ≠ 0) && decide (2 < threshold (srcW 0 0))) :=
  greyscale_simulation_matches_brightness mW srcW fW s0W 0 0 0 0 2
    (by decide) (by decide) (by decide) (by decide) (by decide) (by decide)
    (by decide) (by decide) (by decide)

/-- C4: the brightness table is a fixed constant with strictly increasing
thresholds: for every level `L` in 2..9, `threshold L > threshold (L - 1)`,
and `threshold 9` equals 375, the full row period. -/
theorem brightness_table_strictly_increasing :
    (∀ l, l < 10 → 2 ≤ l → threshold (l - 1) < threshold l) ∧
      threshold 9 = 375 :=
  ⟨by decide, rfl⟩

/-- C2: on every primary-cycle event the handler extinguishes the finished
row (the light state is wholly replaced by the new row's), advances the row
index wrapping to 0 after the last matrix row, loads the new row's
`CompiledRow` from the published frame, lights that row's union bitmask
(every pixel with brightness at least 1 turns on), and arms the secondary
alarm at the lowest present non-zero level's threshold exactly when the row
has a non-zero level and its lowest present level is not 9; otherwise the
secondary alarm is left disabled. -/
theorem primary_event_spec
    (m : Matrix) (source : Nat → Nat → Nat) (f0 : Frame) (s0 : SysState)
    (r : Nat) (cr : CompiledRow) (s1 : SysState)
    (hpos : 0 < m.matrixRows)
    (hr : r = (s0.disp.rowIndex + 1) % m.matrixRows)
    (hcr : cr = (Frame.set m f0 source).rows.getD r CompiledRow.empty)
    (hs1 : s1 = primaryEvent m.matrixRows (Frame.set m f0 source) s0) :
    s1.disp.rowIndex = r ∧
    s1.lights.litRow = r ∧
    s1.lights.litCols = cr.union ∧
    (∀ x, x < m.imageCols → ∀ y, y < m.imageRows → m.InjectiveGeometry →
      (m.geometry x y).1 = r →
        s1.lights.litCols.testBit (m.geometry x y).2
          = decide (1 ≤ boundBrightness (source x y))) ∧
    ((∀ l, l < 10 → 1 ≤ l → cr.present l = false) →
      s1.timer.secondaryEnabled = false) ∧
    (∀ l, l < 10 → 1 ≤ l → cr.present l = true →
      (∀ k, 1 ≤ k → k < l → cr.present k = false) →
        if l = 9 then s1.timer.secondaryEnabled = false
        else s1.timer.secondaryEnabled = true ∧
          s1.timer.secondaryTick = threshold l ∧
          s1.disp.currentLevel = l) := by
  have hrlt : r < m.matrixRows := by rw [hr]; exact Nat.mod_lt _ hpos
  have hkey : s1.disp.rowIndex = r ∧ s1.lights = ⟨r, cr.union⟩ := by
    rw [hs1]
    simp only [primaryEvent]
    rw [← hr, ← hcr]
    rcases findFrom (fun l => cr.present l) 1 9 with _ | l
    · exact ⟨rfl, rfl⟩
    · dsimp only
      by_cases h9 : l = 9
      · rw [if_pos h9]; exact ⟨rfl, rfl⟩
      · rw [if_neg h9]; exact ⟨rfl, rfl⟩
  refine ⟨hkey.1, by rw [hkey.2], by rw [hkey.2], ?_, ?_, ?_⟩
  · intro x hx y hy hinj hgrow
    rw [hkey.2]
    have hcru : cr.union = unionMask m source r := by
      rw [hcr, frame_set_rows_getD hrlt, compileRow_union]
    have hg : m.geometry x y = (r, (m.geometry x y).2) := Prod.ext hgrow rfl
    rw [hcru]
    exact testBit_unionMask_pixel hinj hx hy hg
  · intro hall
    have hfnone : findFrom (fun l => cr.present l) 1 9 = none := by
      apply findFrom_eq_none_iff.mpr
      intro k h1 h2
      exact hall k (by omega) h1
    rw [hs1]
    simp only [primaryEvent]
    rw [← hr, ← hcr, hfnone]
  · intro l hl10 hl1 hpl hmin
    have hfind : findFrom (fun l => cr.present l) 1 9 = some l := by
      apply findFrom_eq_some_iff.mpr
      exact ⟨hl1, by omega, hpl, fun k hk1 hk2 => hmin k hk1 hk2⟩
    rw [hs1]
    simp only [primaryEvent]
    rw [← hr, ← hcr, hfind]
    dsimp only
    by_cases h9 : l = 9
    · rw [if_pos h9, if_pos h9]
    · rw [if_neg h9, if_neg h9]
      exact ⟨rfl, rfl, rfl⟩

theorem primary_event_spec_check :
    (primaryEvent mW.matrixRows (Frame.set mW fW srcW) s0W).lights.litCols
      = ((Frame.set mW fW srcW).rows.getD 0 CompiledRow.empty).union :=
  (primary_event_spec mW srcW fW s0W 0
    ((Frame.set mW fW srcW).rows.getD 0 CompiledRow.empty)
    (primaryEvent mW.matrixRows (Frame.set mW fW srcW) s0W)
    (by decide) (by decide) rfl rfl).2.2.1

/-- C3: on every secondary-alarm event the handler extinguishes exactly the
columns whose level equals the level just reached, no other column changes
state; if a higher distinct level that needs extinguishing (a level below 9:
level 9 stays lit until the next primary-cycle event) remains present in the
current row, it reprograms the alarm to that level's threshold and keeps it
enabled; otherwise it disables the alarm, leaving any level-9 columns
lit. -/
theorem secondary_event_spec
    (frame : Frame) (s : SysState) (cr : CompiledRow) (c : Nat) (s1 : SysState)
    (hcr : cr = frame.rows.getD s.disp.rowIndex CompiledRow.empty)
    (hc : c = s.disp.currentLevel)
    (hc1 : 1 ≤ c) (hc8 : c ≤ 8)
    (hlit : s.lights.litCols < 65536)
    (hdisj : cr.level c &&& cr.level 9 = 0)
    (hs1 : s1 = secondaryEvent frame s) :
    (∀ i, s1.lights.litCols.testBit i
        = (s.lights.litCols.testBit i && !(cr.level c).testBit i)) ∧
    s1.lights.litRow = s.disp.rowIndex ∧
    (∀ l, l < 9 → c < l → cr.present l = true →
      (∀ k, c < k → k < l → cr.present k = false) →
        s1.timer.secondaryEnabled = true ∧
          s1.timer.secondaryTick = threshold l) ∧
    ((∀ l, l < 9 → c < l → cr.present l = false) →
      s1.timer.secondaryEnabled = false ∧
      (∀ i, (cr.level 9).testBit i = true → s.lights.litCols.testBit i = true →
        s1.lights.litCols.testBit i = true)) := by
  have hlights : s1.lights =
      ⟨s.disp.rowIndex, s.lights.litCols &&& (65535 ^^^ cr.level c)⟩ := by
    rw [hs1, hcr, hc]
    simp only [secondaryEvent]
    rcases findFrom
        (fun l => (frame.rows.getD s.disp.rowIndex CompiledRow.empty).present l)
        (s.disp.currentLevel + 1) (8 - s.disp.currentLevel) with _ | l <;> rfl
  have hbit : ∀ i, s1.lights.litCols.testBit i
      = (s.lights.litCols.testBit i && !(cr.level c).testBit i) := by
    intro i
    rw [hlights]
    dsimp only
    rw [Nat.testBit_and, testBit_comp16]
    by_cases hi : i < 16
    · rw [decide_eq_true hi]
      cases (cr.level c).testBit i <;> rfl
    · rw [testBit_of_lt_two_pow_16 i hlit (by omega)]
      rfl
  refine ⟨hbit, by rw [hlights], ?_, ?_⟩
  · intro l hl9 hcl hp hmin
    have hfind : findFrom (fun k => cr.present k) (c + 1) (8 - c) = some l := by
      apply findFrom_eq_some_iff.mpr
      exact ⟨by omega, by omega, hp, fun k hk1 hk2 => hmin k (by omega) hk2⟩
    rw [hs1]
    simp only [secondaryEvent]
    rw [← hcr, ← hc, hfind]
    exact ⟨rfl, rfl⟩
  · intro hall
    have hfindn : findFrom (fun k => cr.present k) (c + 1) (8 - c) = none := by
      apply findFrom_eq_none_iff.mpr
      intro k h1 h2
      exact hall k (by omega) (by omega)
    constructor
    · rw [hs1]
      simp only [secondaryEvent]
      rw [← hcr, ← hc, hfindn]
    · intro i h9bit hlitbit
      have hand : (cr.level c &&& cr.level 9).testBit i = false := by
        rw [hdisj]; exact Nat.zero_testBit i
      rw [Nat.testBit_and, h9bit] at hand
      have hcbit : (cr.level c).testBit i = false := by
        cases h : (cr.level c).testBit i
        · rfl
        · rw [h] at hand; cases hand
      rw [hbit i, hlitbit, hcbit]
      rfl

/-- A concrete compiled frame with one row: column 0 at level 3, column 1 at
level 9. -/
def frameW3 : Frame := ⟨[⟨[0, 0, 1, 0, 0, 0, 0, 0, 2], 3⟩]⟩

/-- A concrete state mid-row: the secondary alarm has just fired for
level 3. -/
def sW3 : SysState := ⟨⟨0, 3⟩, ⟨true, threshold 3⟩, ⟨0, 3⟩⟩

theorem secondary_event_spec_check :
    (secondaryEvent frameW3 sW3).timer.secondaryEnabled = false :=
  ((secondary_event_spec frameW3 sW3 (frameW3.rows.getD 0 CompiledRow.empty) 3
      (secondaryEvent frameW3 sW3) rfl rfl (by decide) (by decide) (by decide)
      (by decide) rfl).2.2.2 (by decide)).1

lemma boundBrightness_le_nine (b : Nat) : boundBrightness b ≤ 9 :=
  Nat.min_le_right _ _

lemma empty_level (l : Nat) : CompiledRow.empty.level l = 0 := by
  unfold CompiledRow.empty CompiledRow.level
  apply getD_of_forall (fun a => a = 0) rfl
  intro a ha
  exact List.eq_of_mem_replicate ha

/-- The disjointness and union invariant of a single compiled row. -/
def RowMaskInv (cr : CompiledRow) : Prop :=
  (∀ l1, l1 < 10 → ∀ l2, l2 < 10 → 1 ≤ l1 → 1 ≤ l2 → l1 ≠ l2 →
    cr.level l1 &&& cr.level l2 = 0) ∧
  orFrom cr.level 1 9 = cr.union

lemma rowMaskInv_compileRow {m : Matrix} {source : Nat → Nat → Nat} {r : Nat}
    (hinj : m.InjectiveGeometry) : RowMaskInv (compileRow m source r) := by
  constructor
  · intro l1 hl1 l2 hl2 h1l h2l hne
    apply Nat.eq_of_testBit_eq
    intro i
    rw [Nat.testBit_and, Nat.zero_testBit]
    rcases hb1 : ((compileRow m source r).level l1).testBit i with _ | _
    · rfl
    · rcases hb2 : ((compileRow m source r).level l2).testBit i with _ | _
      · rfl
      · exfalso
        rw [compileRow_level l1 h1l (by omega)] at hb1
        rw [compileRow_level l2 h2l (by omega)] at hb2
        obtain ⟨x1, hx1, y1, hy1, hr1, hv1, hc1⟩ := testBit_levelMask.mp hb1
        obtain ⟨x2, hx2, y2, hy2, hr2, hv2, hc2⟩ := testBit_levelMask.mp hb2
        have he1 : m.geometry x1 y1 = (r, i) := Prod.ext hr1 hc1
        have he2 : m.geometry x2 y2 = (r, i) := Prod.ext hr2 hc2
        have hgeq : m.geometry x1 y1 = m.geometry x2 y2 := by
          rw [he1, he2]
        obtain ⟨rfl, rfl⟩ := geometry_unique hinj hx2 hy2 hx1 hy1 hgeq
        rw [hv1] at hv2
        exact hne hv2
  · apply Nat.eq_of_testBit_eq
    intro i
    apply bool_eq_of_true_iff
    rw [testBit_orFrom, compileRow_union, testBit_unionMask]
    constructor
    · rintro ⟨l, h1, h2, hbit⟩
      rw [compileRow_level l h1 (by omega)] at hbit
      obtain ⟨x1, hx1, y1, hy1, hr1, hv1, hc1⟩ := testBit_levelMask.mp hbit
      exact ⟨x1, hx1, y1, hy1, hr1, by omega, hc1⟩
    · rintro ⟨x1, hx1, y1, hy1, hr1, hv1, hc1⟩
      refine ⟨boundBrightness (source x1 y1), hv1, ?_, ?_⟩
      · have := boundBrightness_le_nine (source x1 y1)
        omega
      · rw [compileRow_level (boundBrightness (source x1 y1)) hv1
          (boundBrightness_le_nine (source x1 y1))]
        exact testBit_levelMask.mpr ⟨x1, hx1, y1, hy1, hr1, rfl, hc1⟩

lemma rowMaskInv_empty : RowMaskInv CompiledRow.empty := by
  constructor
  · intro l1 _ l2 _ _ _ _
    rw [empty_level, empty_level]
    rfl
  · rw [orFrom_eq_zero fun l h1 h2 => empty_level l]
    rfl

/-- C5: for every `CompiledRow` produced by `Frame::new` or `Frame::set`, the
per-level column bitmasks (levels 1..9) are pairwise disjoint and their
bitwise OR equals the row's union bitmask; the invariant holds after every
`Frame` operation. -/
theorem compiled_row_invariant
    (m : Matrix) (source : Nat → Nat → Nat) (f0 : Frame)
    (hinj : m.InjectiveGeometry) :
    (∀ cr, cr ∈ (Frame.set m f0 source).rows → RowMaskInv cr) ∧
    (∀ cr, cr ∈ (Frame.new m).rows → RowMaskInv cr) := by
  constructor
  · intro cr hmem
    simp only [Frame.set, List.mem_map] at hmem
    obtain ⟨r, -, rfl⟩ := hmem
    exact rowMaskInv_compileRow hinj
  · intro cr hmem
    simp only [Frame.new] at hmem
    rw [List.eq_of_mem_replicate hmem]
    exact rowMaskInv_empty

theorem compiled_row_invariant_check :
    orFrom (compileRow mW srcW 0).level 1 9 = (compileRow mW srcW 0).union :=
  ((compiled_row_invariant mW srcW fW (by decide)).1 (compileRow mW srcW 0)
    (by simp [Frame.set, List.mem_map]; exact ⟨0, by simp [mW], rfl⟩)).2

/-- C6: `Frame::set` fully overwrites the prior compiled state: the result
depends only on the source image, compiling the same image twice into the
same target yields bit-identical compiled state, and a pixel whose
brightness dropped to 0 is cleared. -/
theorem frame_set_overwrites
    (m : Matrix) (source : Nat → Nat → Nat) (f1 f2 : Frame) :
    Frame.set m f1 source = Frame.set m f2 source ∧
    Frame.set m (Frame.set m f1 source) source = Frame.set m f1 source ∧
    (∀ x y r col, x < m.imageCols → y < m.imageRows → m.InjectiveGeometry →
      m.geometry x y = (r, col) → source x y = 0 → r < m.matrixRows →
        ((Frame.set m f1 source).rows.getD r CompiledRow.empty).union.testBit col
          = false) := by
  refine ⟨rfl, rfl, ?_⟩
  intro x y r col hx hy hinj hg hzero hrlt
  rw [frame_set_rows_getD hrlt, compileRow_union,
    testBit_unionMask_pixel hinj hx hy hg, hzero]
  rfl

theorem frame_set_overwrites_check :
    ((Frame.set mW fW srcW).rows.getD 0 CompiledRow.empty).union.testBit 1
      = false :=
  (frame_set_overwrites mW srcW fW fW).2.2 1 0 0 1 (by decide) (by decide)
    (by decide) (by decide) (by decide) (by decide)

/-- C8: every brightness value the source returns, also out of the 0..9
range, is recorded by `Frame::set` at an in-range level: the bounded level
is at most `MAX_BRIGHTNESS`, in-range values are displayed unchanged, and
compiling any source is the same as compiling its bounded version. -/
theorem out_of_range_brightness_bounded
    (m : Matrix) (f0 : Frame) (source : Nat → Nat → Nat) (b : Nat) :
    boundBrightness b ≤ MAX_BRIGHTNESS ∧
    (b ≤ MAX_BRIGHTNESS → boundBrightness b = b) ∧
    Frame.set m f0 source =
      Frame.set m f0 (fun x y => boundBrightness (source x y)) := by
  refine ⟨Nat.min_le_right _ _, fun h => Nat.min_eq_left h, ?_⟩
  have hbb : ∀ v, boundBrightness (boundBrightness v) = boundBrightness v := by
    intro v
    simp only [boundBrightness]
    omega
  simp only [Frame.set, compileRow, levelMask, unionMask, pixelLevelBit,
    pixelUnionBit, hbb]

theorem out_of_range_brightness_bounded_check :
    boundBrightness 200 ≤ MAX_BRIGHTNESS :=
  (out_of_range_brightness_bounded mW fW (fun _ _ => 200) 200).1

lemma zero_source_row {m : Matrix} {f0 : Frame} (r : Nat) :
    ((Frame.set m f0 (fun _ _ => 0)).rows.getD r CompiledRow.empty).union = 0 ∧
    ∀ l, ((Frame.set m f0 (fun _ _ => 0)).rows.getD r CompiledRow.empty).level l
      = 0 := by
  have hb0 : boundBrightness 0 = 0 := rfl
  rcases Nat.lt_or_ge r m.matrixRows with hr | hr
  · rw [frame_set_rows_getD hr]
    have hlm : ∀ lvl, 1 ≤ lvl → levelMask m (fun _ _ => 0) r lvl = 0 := by
      intro lvl h1
      unfold levelMask
      apply pixelOr_eq_zero
      intro x y
      unfold pixelLevelBit
      rw [if_neg]
      rintro ⟨-, h⟩
      rw [hb0] at h
      omega
    constructor
    · rw [compileRow_union]
      unfold unionMask
      apply pixelOr_eq_zero
      intro x y
      unfold pixelUnionBit
      rw [if_neg]
      rintro ⟨-, h⟩
      rw [hb0] at h
      omega
    · intro l
      unfold CompiledRow.level
      apply getD_of_forall (fun a => a = 0) rfl
      intro a ha
      simp only [compileRow, List.mem_cons, List.not_mem_nil, or_false] at ha
      rcases ha with rfl | rfl | rfl | rfl | rfl | rfl | rfl | rfl | rfl <;>
        exact hlm _ (by norm_num)
  · have hlen : (Frame.set m f0 (fun _ _ => 0)).rows.length ≤ r := by
      simp only [Frame.set, List.length_map, List.length_range]
      exact hr
    rw [List.getD_eq_getElem?_getD, List.getElem?_eq_none hlen]
    exact ⟨rfl, empty_level⟩

lemma zero_frame_invariant_step {m : Matrix} {f0 : Frame} {nRows : Nat}
    {s : SysState} (p q : Bool)
    (h1 : s.timer.secondaryEnabled = false) (h2 : s.lights.litCols = 0) :
    (handleEvent nRows (Frame.set m f0 (fun _ _ => 0)) p q s).timer.secondaryEnabled
        = false ∧
    (handleEvent nRows (Frame.set m f0 (fun _ _ => 0)) p q s).lights.litCols
        = 0 := by
  have hpres : ∀ r l,
      ((Frame.set m f0 (fun _ _ => 0)).rows.getD r CompiledRow.empty).present l
        = false := by
    intro r l
    unfold CompiledRow.present
    rw [(zero_source_row r).2 l]
    rfl
  rcases p with _ | _
  · rcases q with _ | _
    · exact ⟨h1, h2⟩
    · show (secondaryEvent _ s).timer.secondaryEnabled = false ∧
        (secondaryEvent _ s).lights.litCols = 0
      simp only [secondaryEvent]
      rw [findFrom_eq_none_iff.mpr fun k hk1 hk2 => hpres _ k]
      refine ⟨rfl, ?_⟩
      rw [h2]
      dsimp only
      exact Nat.zero_and _
  · show (primaryEvent nRows _ s).timer.secondaryEnabled = false ∧
      (primaryEvent nRows _ s).lights.litCols = 0
    simp only [primaryEvent]
    rw [findFrom_eq_none_iff.mpr fun k hk1 hk2 => hpres _ k]
    exact ⟨rfl, (zero_source_row _).1⟩

/-- C7: if the published frame is all-zero, then over every sequence of
handler invocations the scheduler never enables the secondary alarm and
never lights any column: after every prefix of invocations the secondary
alarm is disabled and the lit-column bitmask is zero. -/
theorem all_zero_frame_never_arms_or_lights
    (m : Matrix) (f0 : Frame) (nRows : Nat) (events : List (Bool × Bool)) :
    ((events.foldl
        (fun s e => handleEvent nRows (Frame.set m f0 (fun _ _ => 0)) e.1 e.2 s)
        initialState).timer.secondaryEnabled = false) ∧
    ((events.foldl
        (fun s e => handleEvent nRows (Frame.set m f0 (fun _ _ => 0)) e.1 e.2 s)
        initialState).lights.litCols = 0) := by
  suffices h : ∀ (evs : List (Bool × Bool)) (s : SysState),
      s.timer.secondaryEnabled = false → s.lights.litCols = 0 →
      ((evs.foldl
          (fun s e => handleEvent nRows (Frame.set m f0 (fun _ _ => 0)) e.1 e.2 s)
          s).timer.secondaryEnabled = false) ∧
      ((evs.foldl
          (fun s e => handleEvent nRows (Frame.set m f0 (fun _ _ => 0)) e.1 e.2 s)
          s).lights.litCols = 0) by
    exact h events initialState rfl rfl
  intro evs
  induction evs with
  | nil => intro s h1 h2; exact ⟨h1, h2⟩
  | cons e rest ih =>
    intro s h1 h2
    simp only [List.foldl_cons]
    obtain ⟨h1s, h2s⟩ := zero_frame_invariant_step e.1 e.2 h1 h2
    exact ih _ h1s h2s

lemma runRow_row_tracking {nRows : Nat} {frame : Frame} {s0 : SysState} :
    ∀ t, (runRow nRows frame s0 t).disp.rowIndex = (s0.disp.rowIndex + 1) % nRows ∧
      (runRow nRows frame s0 t).lights.litRow = (s0.disp.rowIndex + 1) % nRows := by
  intro t
  induction t with
  | zero =>
    show (primaryEvent nRows frame s0).disp.rowIndex = _ ∧
      (primaryEvent nRows frame s0).lights.litRow = _
    simp only [primaryEvent]
    rcases findFrom
        (fun l =>
          (frame.rows.getD ((s0.disp.rowIndex + 1) % nRows) CompiledRow.empty).present l)
        1 9 with _ | l
    · exact ⟨rfl, rfl⟩
    · dsimp only
      by_cases h9 : l = 9
      · rw [if_pos h9]; exact ⟨rfl, rfl⟩
      · rw [if_neg h9]; exact ⟨rfl, rfl⟩
  | succ t ih =>
    show (tickStep nRows frame (t + 1) (runRow nRows frame s0 t)).disp.rowIndex = _ ∧
      (tickStep nRows frame (t + 1) (runRow nRows frame s0 t)).lights.litRow = _
    unfold tickStep handleEvent
    rcases hq : ((runRow nRows frame s0 t).timer.secondaryEnabled &&
        (runRow nRows frame s0 t).timer.secondaryTick == t + 1) with _ | _
    · simpa using ih
    · simp only [Bool.false_eq_true, if_false, if_true]
      simp only [secondaryEvent]
      rcases findFrom
          (fun l =>
            (frame.rows.getD (runRow nRows frame s0 t).disp.rowIndex
              CompiledRow.empty).present l)
          ((runRow nRows frame s0 t).disp.currentLevel + 1)
          (8 - (runRow nRows frame s0 t).disp.currentLevel) with _ | l
      · exact ⟨ih.1, ih.1⟩
      · exact ⟨ih.1, ih.1⟩

lemma countLitTicks_append {l1 l2 : List SysState} {r col : Nat} :
    countLitTicks (l1 ++ l2) r col = countLitTicks l1 r col + countLitTicks l2 r col := by
  simp [countLitTicks]

lemma rowTickStates_count_hit {m : Matrix} {source : Nat → Nat → Nat}
    {f0 : Frame} {s0 : SysState} {x y r col : Nat}
    (hpos : 0 < m.matrixRows)
    (hinj : m.InjectiveGeometry)
    (hcols : ∀ a, a < m.imageCols → ∀ b, b < m.imageRows → (m.geometry a b).2 < 16)
    (hx : x < m.imageCols) (hy : y < m.imageRows)
    (hg : m.geometry x y = (r, col))
    (hr : r = (s0.disp.rowIndex + 1) % m.matrixRows)
    (hb : source x y = 9) :
    countLitTicks (rowTickStates m.matrixRows (Frame.set m f0 source) s0) r col
      = CYCLE_TICKS := by
  unfold countLitTicks rowTickStates
  rw [List.countP_eq_length.mpr, List.length_map, List.length_range]
  intro s hs
  rw [List.mem_map] at hs
  obtain ⟨t, htmem, rfl⟩ := hs
  rw [List.mem_range] at htmem
  have hlit := runRow_litCols_pixel m source f0 s0 x y r col t hpos hinj hcols
    hx hy hg hr (by rw [hb]; decide) htmem
  rw [hb] at hlit
  have hlit2 : (runRow m.matrixRows (Frame.set m f0 source) s0 t).lights.litCols.testBit
      col = true := by
    rw [hlit]
    have h9 : threshold 9 = 375 := rfl
    have ht375 : t < 375 := by simpa [CYCLE_TICKS] using htmem
    rw [h9]
    simp [ht375]
  have hrow : (runRow m.matrixRows (Frame.set m f0 source) s0 t).lights.litRow
      = (s0.disp.rowIndex + 1) % m.matrixRows := (runRow_row_tracking t).2
  have hrr : (runRow m.matrixRows (Frame.set m f0 source) s0 t).lights.litRow = r := by
    rw [hrow, ← hr]
  rw [hrr, beq_self_eq_true, hlit2]
  rfl

lemma rowTickStates_count_miss {nRows : Nat} {frame : Frame} {s0 : SysState}
    {r col : Nat} (hne : (s0.disp.rowIndex + 1) % nRows ≠ r) :
    countLitTicks (rowTickStates nRows frame s0) r col = 0 := by
  unfold countLitTicks rowTickStates
  rw [List.countP_eq_zero]
  intro s hs
  rw [List.mem_map] at hs
  obtain ⟨t, -, rfl⟩ := hs
  have hrow : (runRow nRows frame s0 t).lights.litRow
      = (s0.disp.rowIndex + 1) % nRows := (runRow_row_tracking t).2
  intro hcon
  rw [Bool.and_eq_true, beq_iff_eq, hrow] at hcon
  exact hne hcon.1

lemma rowEnd_rowIndex {nRows : Nat} {frame : Frame} {s0 : SysState} :
    (rowEnd nRows frame s0).disp.rowIndex = (s0.disp.rowIndex + 1) % nRows := by
  unfold rowEnd
  exact (runRow_row_tracking (CYCLE_TICKS - 1)).1

lemma refreshStates_length {nRows : Nat} {frame : Frame} :
    ∀ k (s0 : SysState),
      (refreshStates nRows frame s0 k).length = k * CYCLE_TICKS := by
  intro k
  induction k with
  | zero => intro s0; rfl
  | succ k ih =>
    intro s0
    simp only [refreshStates]
    rw [List.length_append, ih]
    simp only [rowTickStates, List.length_map, List.length_range]
    ring

lemma refreshStates_count {m : Matrix} {source : Nat → Nat → Nat}
    {f0 : Frame} {x y r col : Nat}
    (hpos : 0 < m.matrixRows)
    (hinj : m.InjectiveGeometry)
    (hcols : ∀ a, a < m.imageCols → ∀ b, b < m.imageRows → (m.geometry a b).2 < 16)
    (hx : x < m.imageCols) (hy : y < m.imageRows)
    (hg : m.geometry x y = (r, col))
    (hb : source x y = 9) :
    ∀ k (s0 : SysState),
      countLitTicks (refreshStates m.matrixRows (Frame.set m f0 source) s0 k) r col
        = CYCLE_TICKS *
            ((List.range k).countP fun i =>
              (s0.disp.rowIndex + 1 + i) % m.matrixRows == r) := by
  intro k
  induction k with
  | zero => intro s0; rfl
  | succ k ih =>
    intro s0
    have hper : countLitTicks (rowTickStates m.matrixRows (Frame.set m f0 source) s0)
        r col =
        if (s0.disp.rowIndex + 1 + 0) % m.matrixRows == r then CYCLE_TICKS else 0 := by
      by_cases hcase : (s0.disp.rowIndex + 1) % m.matrixRows = r
      · rw [if_pos (by rw [Nat.add_zero]; exact beq_iff_eq.mpr hcase)]
        exact rowTickStates_count_hit hpos hinj hcols hx hy hg hcase.symm hb
      · rw [if_neg (by rw [Nat.add_zero]; exact fun h => hcase (beq_iff_eq.mp h))]
        exact rowTickStates_count_miss hcase
    have hrest := ih (rowEnd m.matrixRows (Frame.set m f0 source) s0)
    have hpred : ((List.range k).countP fun i =>
        ((rowEnd m.matrixRows (Frame.set m f0 source) s0).disp.rowIndex + 1 + i)
          % m.matrixRows == r)
        = ((List.range k).countP fun i =>
            (s0.disp.rowIndex + 1 + (i + 1)) % m.matrixRows == r) := by
      apply List.countP_congr
      intro i _
      rw [rowEnd_rowIndex]
      rw [show (s0.disp.rowIndex + 1) % m.matrixRows + 1 + i
          = (s0.disp.rowIndex + 1) % m.matrixRows + (1 + i) from by omega]
      rw [Nat.mod_add_mod]
      rw [show s0.disp.rowIndex + 1 + (1 + i) = s0.disp.rowIndex + 1 + (i + 1) from by
        omega]
    have hcomp : ((fun i => (s0.disp.rowIndex + 1 + i) % m.matrixRows == r) ∘ Nat.succ)
        = fun i => (s0.disp.rowIndex + 1 + (i + 1)) % m.matrixRows == r := by
      funext i
      rfl
    simp only [refreshStates]
    rw [countLitTicks_append, hper, hrest, hpred, List.range_succ_eq_map,
      List.countP_cons, List.countP_map, hcomp]
    by_cases hcase : ((s0.disp.rowIndex + 1 + 0) % m.matrixRows == r) = true
    · rw [if_pos hcase, if_pos hcase]
      ring
    · rw [if_neg hcase, if_neg hcase]
      ring

/-- C10: for a display whose `Matrix` has `R` matrix rows, a pixel at maximum
brightness 9 is lit for exactly 375 ticks of each full `R`×375-tick refresh,
ie for the fraction `1/R` of the time (one third of the time when
`R = 3`). -/
theorem max_brightness_duty_cycle
    (m : Matrix) (source : Nat → Nat → Nat) (f0 : Frame)
    (x y r col : Nat)
    (hpos : 0 < m.matrixRows)
    (hinj : m.InjectiveGeometry)
    (hcols : ∀ a, a < m.imageCols → ∀ b, b < m.imageRows → (m.geometry a b).2 < 16)
    (hx : x < m.imageCols) (hy : y < m.imageRows)
    (hg : m.geometry x y = (r, col))
    (hrlt : r < m.matrixRows)
    (hb : source x y = 9) :
    countLitTicks
        (refreshStates m.matrixRows (Frame.set m f0 source)
          ⟨⟨m.matrixRows - 1, 0⟩, ⟨false, 0⟩, ⟨0, 0⟩⟩ m.matrixRows) r col
      = CYCLE_TICKS ∧
    (refreshStates m.matrixRows (Frame.set m f0 source)
        ⟨⟨m.matrixRows - 1, 0⟩, ⟨false, 0⟩, ⟨0, 0⟩⟩ m.matrixRows).length
      = m.matrixRows * CYCLE_TICKS := by
  constructor
  · rw [refreshStates_count hpos hinj hcols hx hy hg hb]
    have hR : m.matrixRows - 1 + 1 = m.matrixRows := by omega
    have hmem : ∀ i ∈ List.range m.matrixRows,
        (((⟨⟨m.matrixRows - 1, 0⟩, ⟨false, 0⟩, ⟨0, 0⟩⟩ : SysState).disp.rowIndex
            + 1 + i) % m.matrixRows == r) = true
          ↔ (i == r) = true := by
      intro i hi
      rw [List.mem_range] at hi
      show ((m.matrixRows - 1 + 1 + i) % m.matrixRows == r) = true ↔ _
      rw [hR, Nat.add_mod_left, Nat.mod_eq_of_lt hi]
    rw [List.countP_congr hmem]
    have hcount : (List.range m.matrixRows).countP (fun i => i == r) = 1 := by
      show (List.range m.matrixRows).count r = 1
      exact List.count_eq_one_of_mem (List.nodup_range _) (List.mem_range.mpr hrlt)
    rw [hcount, Nat.mul_one]
  · exact refreshStates_length _ _

/-- A concrete image with pixel `(0, 0)` at maximum brightness. -/
def srcW9 : Nat → Nat → Nat := fun x y => if x = 0 ∧ y = 0 then 9 else 0

theorem max_brightness_duty_cycle_check :
    countLitTicks
        (refreshStates mW.matrixRows (Frame.set mW fW srcW9)
          ⟨⟨mW.matrixRows - 1, 0⟩, ⟨false, 0⟩, ⟨0, 0⟩⟩ mW.matrixRows) 0 0
      = CYCLE_TICKS ∧
    (refreshStates mW.matrixRows (Frame.set mW fW srcW9)
        ⟨⟨mW.matrixRows - 1, 0⟩, ⟨false, 0⟩, ⟨0, 0⟩⟩ mW.matrixRows).length
      = mW.matrixRows * CYCLE_TICKS :=
  max_brightness_duty_cycle mW srcW9 fW 0 0 0 0 (by decide) (by decide)
    (by decide) (by decide) (by decide) (by decide) (by decide) (by decide)

end TinyLedMatrix
